import Mathlib

/-!
Verification of the tile Aasen LDLᵀ factorization core `plasma_pzhetrf_aa`
(compute/pzhetrf_aa.c), PlasmaLower path.

The embedding works at tile granularity: a tile is an element of an additive
commutative monoid/group (for the reduction machinery), an element of a ring
with a star operation (for the multiply chains), or a concrete square matrix
over a star ring (for the band-finalization stage).  Workspace arrays such as
the reduction slots `W3`/`W4` are modelled as functions `ℕ → M` from slot
index to tile value, and each C loop is transcribed as a structural recursion
that performs the iterations in the same order as the source.
-/

namespace Pzhetrf

/-- Ceiling base-2 logarithm, fuel-based so that it is structurally recursive
and kernel-evaluable.  This is the exact value of the C expression
`ceil(log10((double)p)/log10(2.0))` computed at lines 132 and 274 of
pzhetrf_aa.c for the player counts that occur (the code halves the player
count as `ceil(p/2.0)` until it reaches 1, which takes exactly this many
rounds). -/
def clog2Aux : ℕ → ℕ → ℕ
  | 0, _ => 0
  | fuel+1, p => if 2 ≤ p then clog2Aux fuel ((p+1)/2) + 1 else 0

/-- Ceiling base-2 logarithm: number of tournament rounds for `p` players. -/
def clog2 (p : ℕ) : ℕ := clog2Aux p p

lemma clog2Aux_congr : ∀ f g p, p ≤ f → p ≤ g → clog2Aux f p = clog2Aux g p := by
  intro f
  induction f with
  | zero =>
    intro g p hf _
    interval_cases p
    cases g <;> simp [clog2Aux]
  | succ f ih =>
    intro g p hf hg
    cases g with
    | zero =>
      interval_cases p
      simp [clog2Aux]
    | succ g =>
      simp only [clog2Aux]
      by_cases h2 : 2 ≤ p
      · rw [if_pos h2, if_pos h2, ih g ((p+1)/2) (by omega) (by omega)]
      · rw [if_neg h2, if_neg h2]

lemma clog2_two_le (p : ℕ) (h : 2 ≤ p) : clog2 p = clog2 ((p+1)/2) + 1 := by
  unfold clog2
  cases p with
  | zero => omega
  | succ q =>
    simp only [clog2Aux, if_pos h]
    rw [clog2Aux_congr q ((q+2)/2) ((q+1+1)/2) (by omega) (by omega)]

/-- A tournament over `p` players finishes within `clog2 p` rounds:
`p ≤ 2 ^ clog2 p` for `p ≥ 1`. -/
lemma le_pow_clog2 : ∀ p, 1 ≤ p → p ≤ 2 ^ clog2 p := by
  intro p
  induction p using Nat.strong_induction_on with
  | _ p ih =>
    intro hp
    by_cases h2 : 2 ≤ p
    · rw [clog2_two_le p h2]
      have hlt : (p+1)/2 < p := by omega
      have h1 : 1 ≤ (p+1)/2 := by omega
      have := ih ((p+1)/2) hlt h1
      have h2q : p ≤ 2 * ((p+1)/2) := by omega
      calc p ≤ 2 * ((p+1)/2) := h2q
        _ ≤ 2 * 2 ^ clog2 ((p+1)/2) := by omega
        _ = 2 ^ (clog2 ((p+1)/2) + 1) := by rw [pow_succ]; omega
    · have : p = 1 := by omega
      subst this
      simp [clog2, clog2Aux]

variable {M : Type*} [AddCommMonoid M]

/-- One bracket of the tournament (pzhetrf_aa.c lines 135-145): the first
contender at slot `skip*b` absorbs the second at slot `skip*b + skip/2`. -/
def doBracket (skip b : ℕ) (s : ℕ → M) : ℕ → M := fun j =>
  if j = skip*b then s (skip*b) + s (skip*b + skip/2) else s j

/-- One round of the tournament: brackets `0, …, nb-1` in loop order. -/
def doRound (skip : ℕ) (s : ℕ → M) : ℕ → ℕ → M
  | 0 => s
  | nb+1 => doBracket skip nb (doRound skip s nb)

/-- The full tournament loop (pzhetrf_aa.c lines 130-148): `r` remaining
rounds, current interval `skip`, current player count `np`; each round
runs `np / 2` brackets, then doubles `skip` and halves `np` rounding up
(`num_players = ceil(num_players/2.0)`). -/
def tournamentAux : ℕ → ℕ → ℕ → (ℕ → M) → ℕ → M
  | 0, _skip, _np, s => s
  | r+1, skip, np, s => tournamentAux r (2*skip) ((np+1)/2) (doRound skip s (np/2))

/-- The tournament reduction over `p` slots: `num_rounds = ceil(log2 p)`
rounds starting with `skip = 2` and `num_players = p`. -/
def tournament (p : ℕ) (s : ℕ → M) : ℕ → M :=
  tournamentAux (clog2 p) 2 p s

lemma doRound_other (skip : ℕ) (s : ℕ → M) :
    ∀ nb j, (∀ b, b < nb → j ≠ skip*b) → doRound skip s nb j = s j := by
  intro nb
  induction nb with
  | zero => intro j _; rfl
  | succ nb ih =>
    intro j hj
    have hne : j ≠ skip*nb := hj nb (by omega)
    simp only [doRound, doBracket, if_neg hne]
    exact ih j (fun b hb => hj b (by omega))

lemma doRound_bracket (skip : ℕ) (h2 : 0 < skip/2) (h3 : skip/2 < skip) (s : ℕ → M) :
    ∀ nb b, b < nb →
      doRound skip s nb (skip*b) = s (skip*b) + s (skip*b + skip/2) := by
  have hskip : 0 < skip := lt_of_le_of_lt (Nat.zero_le _) h3
  intro nb
  induction nb with
  | zero => intro b hb; omega
  | succ nb ih =>
    intro b hb
    rcases Nat.lt_succ_iff_lt_or_eq.mp hb with hlt | heq
    · have hne : skip*b ≠ skip*nb := by
        intro h
        exact absurd (Nat.eq_of_mul_eq_mul_left hskip h) (by omega)
      simp only [doRound, doBracket, if_neg hne]
      exact ih b hlt
    · rw [heq]
      simp only [doRound, doBracket, if_pos rfl]
      have hA : doRound skip s nb (skip*nb) = s (skip*nb) := by
        apply doRound_other
        intro b' hb' h
        exact absurd (Nat.eq_of_mul_eq_mul_left hskip h) (by omega)
      have hB : doRound skip s nb (skip*nb + skip/2) = s (skip*nb + skip/2) := by
        apply doRound_other
        intro b' hb' h
        have hmod : (skip*nb + skip/2) % skip = skip/2 := by
          rw [Nat.mul_add_mod]
          exact Nat.mod_eq_of_lt h3
        rw [h] at hmod
        rw [Nat.mul_mod_right] at hmod
        omega
      simp [hA, hB]

lemma np_halve_lower {np t p : ℕ} (h : (np-1)*2^t < p) :
    (((np+1)/2)-1)*2^(t+1) < p := by
  have h1 : (((np+1)/2)-1)*2 ≤ np-1 := by omega
  calc (((np+1)/2)-1)*2^(t+1) = (((np+1)/2)-1)*2*2^t := by ring
    _ ≤ (np-1)*2^t := mul_le_mul_right' h1 _
    _ < p := h

lemma np_halve_upper {np t p : ℕ} (h : p ≤ np*2^t) :
    p ≤ ((np+1)/2)*2^(t+1) := by
  have h1 : np ≤ ((np+1)/2)*2 := by omega
  calc p ≤ np*2^t := h
    _ ≤ ((np+1)/2)*2*2^t := mul_le_mul_right' h1 _
    _ = ((np+1)/2)*2^(t+1) := by ring

lemma bracket_bound {np t p b : ℕ} (h : (np-1)*2^t < p) (hb : b < np/2) :
    2^(t+1)*b + 2^t < p := by
  have h1 : 2*b+1 ≤ np-1 := by omega
  calc 2^(t+1)*b + 2^t = (2*b+1)*2^t := by ring
    _ ≤ (np-1)*2^t := mul_le_mul_right' h1 _
    _ < p := h

lemma pow_succ_div_two (t : ℕ) : 2^(t+1)/2 = 2^t := by
  rw [pow_succ]
  exact Nat.mul_div_cancel _ (by omega)

/-- Invariant for the tournament: entering a round with `r` rounds left,
stride `2^(t+1)` and player count `np` characterized by
`(np-1)*2^t < p ≤ np*2^t`, slot `2^t*c` holds the sum of the `c`-th chunk
of `2^t` original values (clipped at `p`); on exit slot 0 holds the total. -/
lemma tournamentAux_sum (p : ℕ) (s0 : ℕ → M) :
    ∀ (r t np : ℕ) (s : ℕ → M), 1 ≤ p →
      (np-1)*2^t < p → p ≤ np*2^t → p ≤ 2^(t+r) →
      (∀ c, 2^t*c < p →
        s (2^t*c) = ∑ i in Finset.Ico (2^t*c) (min (2^t*(c+1)) p), s0 i) →
      tournamentAux r (2^(t+1)) np s 0 = ∑ i in Finset.range p, s0 i := by
  intro r
  induction r with
  | zero =>
    intro t np s hp hlow hup hfit hinv
    have h0 : (2:ℕ)^t*0 < p := by simpa using hp
    have := hinv 0 h0
    simp only [Nat.mul_zero, Nat.mul_one] at this
    have hmin : min (2^t*(0+1)) p = p := by
      simp only [Nat.zero_add, Nat.mul_one]
      have : p ≤ 2^t := by simpa using hfit
      omega
    rw [tournamentAux, this, hmin, Finset.range_eq_Ico]
  | succ r ih =>
    intro t np s hp hlow hup hfit hinv
    show tournamentAux r (2*2^(t+1)) ((np+1)/2) (doRound (2^(t+1)) s (np/2)) 0 = _
    have hpow : 2*2^(t+1) = 2^(t+1+1) := by ring
    rw [hpow]
    apply ih (t+1) ((np+1)/2) _ hp (np_halve_lower hlow) (np_halve_upper hup)
      (by have : t+1+r = t+(r+1) := by omega
          rw [this]; exact hfit)
    -- the new invariant at chunk level t+1
    intro c hc
    have hhalf : (2:ℕ)^(t+1)/2 = 2^t := pow_succ_div_two t
    have h2t : (0:ℕ) < 2^t := Nat.pos_pow_of_pos t (by omega)
    by_cases hcb : c < np/2
    · -- a bracket merged chunks 2c and 2c+1
      have heq : doRound (2^(t+1)) s (np/2) (2^(t+1)*c)
          = s (2^(t+1)*c) + s (2^(t+1)*c + 2^(t+1)/2) :=
        doRound_bracket (2^(t+1)) (by rw [hhalf]; exact h2t)
          (by rw [hhalf]; exact Nat.pow_lt_pow_right (by omega) (by omega)) s (np/2) c hcb
      rw [heq, hhalf]
      have e1 : 2^(t+1)*c = 2^t*(2*c) := by ring
      have e2 : 2^(t+1)*c + 2^t = 2^t*(2*c+1) := by ring
      have hc1 : 2^t*(2*c) < p := by rw [← e1]; exact hc
      have hc2 : 2^t*(2*c+1) < p := by
        have := bracket_bound hlow hcb
        rw [← e2]; exact this
      have i1 := hinv (2*c) hc1
      have i2 := hinv (2*c+1) hc2
      rw [e2, e1, i1, i2]
      have hmid : min (2^t*(2*c+1)) p = 2^t*(2*c+1) := by omega
      rw [hmid]
      have hcat : Finset.Ico (2^t*(2*c)) (2^t*(2*c+1)) ∪
          Finset.Ico (2^t*(2*c+1)) (min (2^t*(2*c+1+1)) p) =
          Finset.Ico (2^t*(2*c)) (min (2^t*(2*c+1+1)) p) := by
        apply Finset.Ico_union_Ico_eq_Ico
        · exact Nat.mul_le_mul_left _ (by omega)
        · have e3 : 2^t*(2*c+1+1) = 2^(t+1)*(c+1) := by ring
          have : 2^t*(2*c+1) ≤ 2^t*(2*c+1+1) := Nat.mul_le_mul_left _ (by omega)
          omega
      rw [← Finset.sum_union (by
        apply Finset.Ico_disjoint_Ico_consecutive), hcat]
      have e3 : 2^t*(2*c) = 2^(t+1)*c := by ring
      have e4 : 2^t*(2*c+1+1) = 2^(t+1)*(c+1) := by ring
      rw [e3, e4]
    · -- no bracket touched this chunk: it is already full (clipped at p)
      have heq : doRound (2^(t+1)) s (np/2) (2^(t+1)*c) = s (2^(t+1)*c) := by
        apply doRound_other
        intro b hb h
        have h2t1 : (0:ℕ) < 2^(t+1) := Nat.pos_pow_of_pos _ (by omega)
        have := Nat.eq_of_mul_eq_mul_left h2t1 h
        omega
      rw [heq]
      have e1 : 2^(t+1)*c = 2^t*(2*c) := by ring
      have hc1 : 2^t*(2*c) < p := by rw [← e1]; exact hc
      have i1 := hinv (2*c) hc1
      rw [e1, i1]
      -- both clip to p because p ≤ 2^t*(2c+1)
      have hclip : p ≤ 2^t*(2*c+1) := by
        have h1 : np ≤ 2*c+1 := by omega
        calc p ≤ np*2^t := hup
          _ ≤ (2*c+1)*2^t := mul_le_mul_right' h1 _
          _ = 2^t*(2*c+1) := by ring
      have hm1 : min (2^t*(2*c+1)) p = p := by omega
      have hm2 : min (2^(t+1)*(c+1)) p = p := by
        have e4 : 2^(t+1)*(c+1) = 2^t*(2*c+1+1) := by ring
        have : 2^t*(2*c+1) ≤ 2^t*(2*c+1+1) := Nat.mul_le_mul_left _ (by omega)
        omega
      rw [hm1, hm2]

/-- Correctness of the tournament reduction: slot 0 receives the exact sum
of the `p` initial slot values. -/
lemma tournament_sum (p : ℕ) (hp : 1 ≤ p) (s : ℕ → M) :
    tournament p s 0 = ∑ i in Finset.range p, s i := by
  have h2 : (2:ℕ) = 2^(0+1) := by norm_num
  unfold tournament
  rw [h2]
  apply tournamentAux_sum p s (clog2 p) 0 p s hp
  · simp only [pow_zero, Nat.mul_one]
    omega
  · simp
  · simpa using le_pow_clog2 p hp
  · intro c hc
    simp only [pow_zero, Nat.one_mul] at hc ⊢
    have hmin : min (c+1) p = c+1 := by omega
    rw [hmin]
    rw [Finset.sum_Ico_succ_top (by omega), Finset.Ico_self, Finset.sum_empty, zero_add]

/-- The round-robin reduction-slot accumulation loop shape shared by the
diagonal-block assembly (pzhetrf_aa.c lines 113-128, contributors
`m = 1 … k-1`, slot `(m-1) % num`, `beta = 0` iff `m < num+1`) and, per
tile-row block, the workspace-parallel column update (lines 240-270).
`slotAccumAux num d w j i` is the value of slot `i` after the contributors
`1 … j` have been folded in loop order into the workspace whose initial
(stale) contents are `w`; contributor `m` performs
`W[(m-1) % num] = beta*W[(m-1) % num] + d m` with `beta = 0` iff `m < num+1`. -/
def slotAccumAux (num : ℕ) (d : ℕ → M) (w : ℕ → M) : ℕ → ℕ → M
  | 0, i => w i
  | j+1, i =>
    if i = j % num then
      (if j+1 < num+1 then 0 else slotAccumAux num d w j i) + d (j+1)
    else slotAccumAux num d w j i

/-- Characterization of the slot contents: a written slot holds the sum of
its round-robin residue class of contributors, an unwritten slot still holds
its stale initial value. -/
lemma slotAccum_eq (num : ℕ) (hnum : 1 ≤ num) (d w : ℕ → M) :
    ∀ j i, slotAccumAux num d w j i =
      if i < min j num then
        ∑ m in Finset.Ico 1 (j+1), (if (m-1) % num = i then d m else 0)
      else w i := by
  intro j
  induction j with
  | zero =>
    intro i
    simp [slotAccumAux]
  | succ j ih =>
    intro i
    have hstep : slotAccumAux num d w (j+1) i =
        if i = j % num then
          (if j+1 < num+1 then 0 else slotAccumAux num d w j i) + d (j+1)
        else slotAccumAux num d w j i := rfl
    have htop : ∑ m in Finset.Ico 1 (j+1+1), (if (m-1) % num = i then d m else 0)
        = (∑ m in Finset.Ico 1 (j+1), (if (m-1) % num = i then d m else 0))
          + (if j % num = i then d (j+1) else 0) := by
      rw [Finset.sum_Ico_succ_top (show 1 ≤ j+1 by omega)]
      norm_num
    rw [hstep]
    by_cases hi : i = j % num
    · rw [if_pos hi]
      by_cases hj : j < num
      · have hmod : j % num = j := Nat.mod_eq_of_lt hj
        have hij : i = j := hi.trans hmod
        subst hij
        rw [if_pos (show i+1 < num+1 by omega), zero_add]
        rw [if_pos (show i < min (i+1) num by omega)]
        rw [htop, if_pos hi.symm]
        have hz : ∑ m in Finset.Ico 1 (i+1), (if (m-1) % num = i then d m else 0) = 0 := by
          apply Finset.sum_eq_zero
          intro m hm
          rw [Finset.mem_Ico] at hm
          have hm1 : (m-1) % num = m-1 := Nat.mod_eq_of_lt (by omega)
          rw [hm1, if_neg (by omega)]
        rw [hz, zero_add]
      · have hlt : i < num := by
          rw [hi]
          exact Nat.mod_lt j (by omega)
        rw [if_neg (show ¬ j+1 < num+1 by omega)]
        rw [ih i, if_pos (show i < min j num by omega)]
        rw [if_pos (show i < min (j+1) num by omega)]
        rw [htop, if_pos hi.symm]
    · rw [if_neg hi, ih i]
      by_cases hb : i < min j num
      · rw [if_pos hb, if_pos (show i < min (j+1) num by omega)]
        rw [htop, if_neg (fun h => hi h.symm), add_zero]
      · have hb2 : ¬ i < min (j+1) num := by
          intro hcon
          have h1 : i = j := by omega
          have h2 : j < num := by omega
          exact hi (by rw [h1, Nat.mod_eq_of_lt h2])
        rw [if_neg hb, if_neg hb2]

/-- Sum of all `num` slots after the accumulation loop: every contributor
`1 … j` is counted exactly once, independently of the stale initial
workspace contents. -/
lemma slotAccum_range_sum (num j : ℕ) (hnum : 1 ≤ num) (hj : num ≤ j) (d w : ℕ → M) :
    ∑ i in Finset.range num, slotAccumAux num d w j i
      = ∑ m in Finset.Ico 1 (j+1), d m := by
  have h1 : ∀ i ∈ Finset.range num, slotAccumAux num d w j i
      = ∑ m in Finset.Ico 1 (j+1), (if (m-1) % num = i then d m else 0) := by
    intro i hi
    rw [Finset.mem_range] at hi
    rw [slotAccum_eq num hnum d w j i, if_pos (by omega)]
  rw [Finset.sum_congr rfl h1, Finset.sum_comm]
  apply Finset.sum_congr rfl
  intro m _
  have hmem : (m-1) % num ∈ Finset.range num := by
    rw [Finset.mem_range]
    exact Nat.mod_lt _ (by omega)
  rw [Finset.sum_ite_eq (Finset.range num) ((m-1) % num) (fun _ => d m), if_pos hmem]

/-- Slot loop followed by the tournament: slot 0 of the reduced workspace
holds the sum of all contributors. -/
lemma slotAccum_tournament (num j : ℕ) (hnum : 1 ≤ num) (hj : num ≤ j) (d w : ℕ → M) :
    tournament num (slotAccumAux num d w j) 0 = ∑ m in Finset.Ico 1 (j+1), d m := by
  rw [tournament_sum num hnum, slotAccum_range_sum num j hnum hj]

/-- C2: for every slot count `P ≥ 1` and all initial slot contents, the
tournament reduction loop (`ceil(log2 P)` rounds, round `r` doing
`slot[skip*b] += slot[skip*b + skip/2]` with `skip = 2^r`, active count
halved rounding up) leaves in slot 0 the exact elementwise sum of all `P`
initial slot values, independent of the parity of the active count at any
round. -/
theorem c2_tournament_reduction (P : ℕ) (hP : 1 ≤ P) (s : ℕ → M) :
    tournament P s 0 = ∑ i in Finset.range P, s i :=
  tournament_sum P hP s

/-- Witness for C2 at the concrete odd slot count `P = 5`. -/
theorem c2_tournament_reduction_witness :
    tournament 5 (fun i => (i:ℤ)) 0 = ∑ i in Finset.range 5, (i:ℤ) :=
  c2_tournament_reduction 5 (by decide) (fun i => (i:ℤ))

variable {G : Type*} [AddCommGroup G]

/-- The diagonal-block assembly stage for `T(k,k)` (pzhetrf_aa.c lines
109-173), at tile granularity.  `akk` is the Hermitian diagonal block
`A(k,k)` (the code's `zlacpy(Lower)` plus conjugate-mirror reconstruct
exactly this block), `c m` is the tile product `L(k,m)*H(m,k)`, and `w` is
the stale initial content of the `W3` reduction-slot zone.  For `k > 1`
the `k-1` contributors are distributed round-robin (`id = (m-1) % num`,
`num = imin(tot, k-1)`, `beta = 0` iff `m < num+1`) over the slots, the
tournament reduces the slots, and slot 0 is added to the copied `A(k,k)`;
for `k ≤ 1` the block is just copied. -/
def diagAssemble (tot k : ℕ) (akk : G) (c : ℕ → G) (w : ℕ → G) : G :=
  if 1 < k then
    akk + tournament (min tot (k-1))
      (slotAccumAux (min tot (k-1)) (fun m => -(c m)) w (k-1)) 0
  else akk

/-- C5: the assembled diagonal block equals `A(k,k) - Σ_{m=1}^{k-1}
L(k,m)*H(m,k)` for `k > 1` (computed through the round-robin slots with
first-write-overwrite and the tournament), and is a direct copy of
`A(k,k)` for `k ≤ 1`; the stale workspace contents `w` never enter. -/
theorem c5_diagonal_assembly (tot k : ℕ) (htot : 1 ≤ tot)
    (akk : G) (c : ℕ → G) (w : ℕ → G) :
    diagAssemble tot k akk c w =
      if 1 < k then akk - ∑ m in Finset.Ico 1 k, c m else akk := by
  unfold diagAssemble
  by_cases hk : 1 < k
  · rw [if_pos hk, if_pos hk]
    have hnum : 1 ≤ min tot (k-1) := le_min htot (by omega)
    have hle : min tot (k-1) ≤ k-1 := min_le_right _ _
    rw [slotAccum_tournament (min tot (k-1)) (k-1) hnum hle]
    have hk1 : k-1+1 = k := by omega
    rw [hk1, Finset.sum_neg_distrib, ← sub_eq_add_neg]
  · rw [if_neg hk, if_neg hk]

/-- Witness for C5 at `tot = 2`, `k = 4` over integer tiles. -/
theorem c5_diagonal_assembly_witness :
    diagAssemble 2 4 (5:ℤ) (fun m => (m:ℤ)) (fun _ => 7) =
      if 1 < 4 then (5:ℤ) - ∑ m in Finset.Ico 1 4, (m:ℤ) else 5 :=
  c5_diagonal_assembly 2 4 (by decide) 5 (fun m => (m:ℤ)) (fun _ => 7)

/-- Global index of local slot `j` inside the `W4` block of tile-row `m`
(pzhetrf_aa.c line 246: `id = (m-k-1)*num + …`). -/
def cellOf (k num m j : ℕ) : ℕ := (m - (k+1))*num + j

lemma cellOf_eq_iff {k num m mp j r : ℕ} (hm : k+1 ≤ m) (hmp : k+1 ≤ mp)
    (hj : j < num) (hr : r < num) :
    cellOf k num m j = cellOf k num mp r ↔ m = mp ∧ j = r := by
  constructor
  · intro h
    unfold cellOf at h
    have hmod : j = r := by
      have h1 := congrArg (fun x => x % num) h
      simp only at h1
      rw [Nat.add_comm ((m-(k+1))*num) j, Nat.add_comm ((mp-(k+1))*num) r] at h1
      rw [Nat.add_mul_mod_self_right, Nat.add_mul_mod_self_right] at h1
      rw [Nat.mod_eq_of_lt hj, Nat.mod_eq_of_lt hr] at h1
      exact h1
    subst hmod
    have h2 : (m-(k+1))*num = (mp-(k+1))*num := by omega
    have h3 : m-(k+1) = mp-(k+1) := Nat.eq_of_mul_eq_mul_right (by omega) h2
    exact ⟨by omega, rfl⟩
  · rintro ⟨rfl, rfl⟩
    rfl

/-- Generic inner row loop over tile-rows `s, s+1, …, s+n-1` (in loop
order): the iteration for row `m` updates the cell at local offset `off`
of row `m`'s workspace block from the values at local offsets `off` and
`aux` of the same block.  Both the GEMM accumulation loop (lines 242-269)
and the interleaved tournament bracket (lines 283-290) have this shape. -/
def bfold (k num off aux : ℕ) (V : ℕ → M → M → M) : ℕ → ℕ → (ℕ → M) → ℕ → M
  | _s, 0, w => w
  | s, n+1, w => bfold k num off aux V (s+1) n (fun j =>
      if j = cellOf k num s off then
        V s (w (cellOf k num s off)) (w (cellOf k num s aux))
      else w j)

/-- Rows outside the processed range leave a block untouched. -/
lemma bfold_untouched (k num off aux : ℕ) (V : ℕ → M → M → M) (m j : ℕ)
    (hoff : off < num) (hj : j < num) (hm : k+1 ≤ m) :
    ∀ n s (w : ℕ → M), k+1 ≤ s → (m < s ∨ s+n ≤ m) →
      bfold k num off aux V s n w (cellOf k num m j) = w (cellOf k num m j) := by
  intro n
  induction n with
  | zero => intro s w _ _; rfl
  | succ n ih =>
    intro s w hs hrange
    show bfold k num off aux V (s+1) n _ (cellOf k num m j) = _
    rw [ih (s+1) _ (by omega) (by omega)]
    have hne : cellOf k num m j ≠ cellOf k num s off := by
      intro h
      rcases (cellOf_eq_iff hm hs hj hoff).mp h with ⟨h1, _⟩
      omega
    rw [if_neg hne]

/-- Effect of the row loop on the block of a row `m` inside the processed
range: exactly the single update for row `m` is applied. -/
lemma bfold_mem (k num off aux : ℕ) (V : ℕ → M → M → M) (m j : ℕ)
    (hoff : off < num) (haux : aux < num) (hj : j < num) :
    ∀ n s (w : ℕ → M), k+1 ≤ s → s ≤ m → m < s+n →
      bfold k num off aux V s n w (cellOf k num m j) =
        if j = off then V m (w (cellOf k num m off)) (w (cellOf k num m aux))
        else w (cellOf k num m j) := by
  intro n
  induction n with
  | zero => intro s w _ h1 h2; omega
  | succ n ih =>
    intro s w hs h1 h2
    show bfold k num off aux V (s+1) n _ (cellOf k num m j) = _
    by_cases hms : m = s
    · subst hms
      rw [bfold_untouched k num off aux V m j hoff hj (by omega) n (m+1) _ (by omega)
        (Or.inl (by omega))]
      by_cases hjo : j = off
      · subst hjo
        rw [if_pos rfl, if_pos rfl]
      · rw [if_neg hjo, if_neg (by
          intro h
          exact hjo ((cellOf_eq_iff (by omega) (by omega) hj hoff).mp h).2)]
    · have hsm : s+1 ≤ m := by omega
      rw [ih (s+1) _ (by omega) hsm (by omega)]
      have hch : ∀ x, x < num →
          (if cellOf k num m x = cellOf k num s off then
            V s (w (cellOf k num s off)) (w (cellOf k num s aux))
          else w (cellOf k num m x)) = w (cellOf k num m x) := by
        intro x hx
        rw [if_neg (by
          intro h
          exact hms ((cellOf_eq_iff (by omega) hs hx hoff).mp h).1)]
      by_cases hjo : j = off
      · rw [if_pos hjo, if_pos hjo, hch off hoff, hch aux haux]
      · rw [if_neg hjo, if_neg hjo, hch j hj]

/-- One pass of the workspace-parallel GEMM loop at outer index `n`
(pzhetrf_aa.c lines 240-270): for each tile-row `m = k+1 … mt-1`, perform
`W4[(m-k-1)*num + (n-1)%num] = beta*old + (-(L(m,n)*H(n,k)))` with
`beta = 0` iff `n < num+1` (the two GEMM branches at lines 252-268 are
identical).  `c m n` stands for the tile product `L(m,n)*H(n,k)`. -/
def colInner (mt k num n : ℕ) (c : ℕ → ℕ → G) (w : ℕ → G) : ℕ → G :=
  bfold k num ((n-1) % num) ((n-1) % num)
    (fun m x _y => (if n < num+1 then 0 else x) + -(c m n))
    (k+1) (mt-(k+1)) w

/-- The full outer accumulation loop: passes `n = 1 … n0` in order. -/
def colOuterLoop (mt k num : ℕ) (c : ℕ → ℕ → G) (w : ℕ → G) : ℕ → ℕ → G
  | 0 => w
  | n+1 => colInner mt k num (n+1) c (colOuterLoop mt k num c w n)

/-- One interleaved tournament bracket of the column update (lines
283-290): for each tile-row `m`, slot `skip*b` of row `m`'s block absorbs
slot `skip*b + skip/2` of the same block. -/
def colBracket (mt k num skip b : ℕ) (w : ℕ → M) : ℕ → M :=
  bfold k num (skip*b) (skip*b + skip/2) (fun _m x y => x + y)
    (k+1) (mt-(k+1)) w

/-- One interleaved tournament round: brackets `0 … nb-1` in loop order. -/
def colRound (mt k num skip : ℕ) (w : ℕ → M) : ℕ → ℕ → M
  | 0 => w
  | nb+1 => colBracket mt k num skip nb (colRound mt k num skip w nb)

/-- The interleaved tournament of the column update (lines 271-294),
structured exactly like `tournamentAux` but running every bracket over all
tile-row blocks. -/
def colTournAux (mt k num : ℕ) : ℕ → ℕ → ℕ → (ℕ → M) → ℕ → M
  | 0, _skip, _np, w => w
  | r+1, skip, np, w =>
      colTournAux mt k num r (2*skip) ((np+1)/2) (colRound mt k num skip w (np/2))

/-- The workspace-parallel column-update strategy (pzhetrf_aa.c lines
238-305, taken when `A.mt-k < max_threads`): `num = imin(k, tot/(mt-k-1))`
slots per remaining tile-row, GEMM accumulation, interleaved tournament,
then `W4[(m-k-1)*num]` is added into `L(m,k+1)`.  `lcol m` is the initial
value of the tile `L(m,k+1)` and `w` the stale initial `W4` contents. -/
def colUpdateWorkspace (mt k tot : ℕ) (c : ℕ → ℕ → G) (lcol w : ℕ → G) : ℕ → G :=
  let num := min k (tot / (mt - (k+1)))
  let w1 := colOuterLoop mt k num c w k
  let w2 := colTournAux mt k num (clog2 num) 2 num w1
  fun m => if k+1 ≤ m ∧ m < mt then lcol m + w2 (cellOf k num m 0) else lcol m

/-- Inner row loop of the direct strategy: update row cells in loop order. -/
def rowFold (g : ℕ → M → M) : ℕ → ℕ → (ℕ → M) → ℕ → M
  | _s, 0, l => l
  | s, n+1, l => rowFold g (s+1) n (fun j => if j = s then g s (l s) else l j)

/-- The direct column-update strategy (pzhetrf_aa.c lines 306-321): for
`n = 1 … k` and each tile-row `m`, `L(m,k+1) += -(L(m,n)*H(n,k))`
term by term. -/
def colDirectLoop (mt k : ℕ) (c : ℕ → ℕ → G) (lcol : ℕ → G) : ℕ → ℕ → G
  | 0 => lcol
  | n+1 => rowFold (fun m x => x + -(c m (n+1))) (k+1) (mt-(k+1))
      (colDirectLoop mt k c lcol n)

/-- The direct strategy runs passes `n = 1 … k`. -/
def colUpdateDirect (mt k : ℕ) (c : ℕ → ℕ → G) (lcol : ℕ → G) : ℕ → G :=
  colDirectLoop mt k c lcol k

lemma rowFold_untouched (g : ℕ → M → M) :
    ∀ n s (l : ℕ → M) j, j < s ∨ s+n ≤ j → rowFold g s n l j = l j := by
  intro n
  induction n with
  | zero => intro s l j _; rfl
  | succ n ih =>
    intro s l j hr
    show rowFold g (s+1) n _ j = _
    rw [ih (s+1) _ j (by omega), if_neg (by omega)]

lemma rowFold_mem (g : ℕ → M → M) :
    ∀ n s (l : ℕ → M) j, s ≤ j → j < s+n → rowFold g s n l j = g j (l j) := by
  intro n
  induction n with
  | zero => intro s l j h1 h2; omega
  | succ n ih =>
    intro s l j h1 h2
    show rowFold g (s+1) n _ j = _
    by_cases hjs : j = s
    · rw [rowFold_untouched g n (s+1) _ j (by omega)]
      rw [if_pos hjs, hjs]
    · rw [ih (s+1) _ j (by omega) (by omega), if_neg hjs]

/-- Value of `L(j,k+1)` after `n` passes of the direct strategy. -/
lemma colDirectLoop_eq (mt k : ℕ) (c : ℕ → ℕ → G) (lcol : ℕ → G) :
    ∀ n j, colDirectLoop mt k c lcol n j =
      if k+1 ≤ j ∧ j < mt then lcol j + ∑ i in Finset.Ico 1 (n+1), -(c j i)
      else lcol j := by
  intro n
  induction n with
  | zero =>
    intro j
    simp [colDirectLoop]
  | succ n ih =>
    intro j
    show rowFold _ (k+1) (mt-(k+1)) _ j = _
    by_cases hin : k+1 ≤ j ∧ j < mt
    · rw [rowFold_mem _ (mt-(k+1)) (k+1) _ j (by omega) (by omega)]
      rw [ih j, if_pos hin, if_pos hin]
      rw [Finset.sum_Ico_succ_top (show 1 ≤ n+1 by omega), add_assoc]
    · rw [rowFold_untouched _ (mt-(k+1)) (k+1) _ j (by omega)]
      rw [ih j, if_neg hin, if_neg hin]

/-- Restricted to the workspace block of one tile-row `m`, the GEMM
accumulation loop of the workspace strategy is exactly the round-robin
slot accumulation with contributors `-(L(m,n)*H(n,k))`, `n = 1 … n0`. -/
lemma colOuterLoop_block (mt k num : ℕ) (hnum : 1 ≤ num) (c : ℕ → ℕ → G)
    (w : ℕ → G) (m : ℕ) (hm1 : k+1 ≤ m) (hm2 : m < mt) :
    ∀ n j, j < num →
      colOuterLoop mt k num c w n (cellOf k num m j)
        = slotAccumAux num (fun i => -(c m i))
            (fun j2 => w (cellOf k num m j2)) n j := by
  intro n
  induction n with
  | zero => intro j _; rfl
  | succ n ih =>
    intro j hj
    have hmod : n % num < num := Nat.mod_lt n (by omega)
    show colInner mt k num (n+1) c _ (cellOf k num m j) = _
    unfold colInner
    rw [bfold_mem k num ((n+1-1) % num) ((n+1-1) % num) _ m j hmod hmod hj
      (mt-(k+1)) (k+1) _ (by omega) hm1 (by omega)]
    have hred : (n+1-1) % num = n % num := by norm_num
    rw [hred]
    have hstep : slotAccumAux num (fun i => -(c m i))
        (fun j2 => w (cellOf k num m j2)) (n+1) j =
        if j = n % num then
          (if n+1 < num+1 then 0
           else slotAccumAux num (fun i => -(c m i))
             (fun j2 => w (cellOf k num m j2)) n j) + -(c m (n+1))
        else slotAccumAux num (fun i => -(c m i))
          (fun j2 => w (cellOf k num m j2)) n j := rfl
    rw [hstep]
    by_cases hjn : j = n % num
    · rw [if_pos hjn, if_pos hjn, ih (n % num) hmod]
      by_cases hb : n+1 < num+1
      · rw [if_pos hb, if_pos hb]
      · rw [if_neg hb, if_neg hb, hjn]
    · rw [if_neg hjn, if_neg hjn, ih j hj]

/-- Restricted to the block of tile-row `m`, the interleaved bracket round
of the column update agrees with the plain tournament round. -/
lemma colRound_agree (mt k num : ℕ) (m : ℕ) (hm1 : k+1 ≤ m) (hm2 : m < mt) (t : ℕ) :
    ∀ nb (w s : ℕ → G),
      (∀ b, b < nb → 2^(t+1)*b + 2^t < num) →
      (∀ j, j < num → w (cellOf k num m j) = s j) →
      ∀ j, j < num →
        colRound mt k num (2^(t+1)) w nb (cellOf k num m j)
          = doRound (2^(t+1)) s nb j := by
  intro nb
  induction nb with
  | zero => intro w s _ hws j hj; exact hws j hj
  | succ nb ih =>
    intro w s hbb hws j hj
    have hhalf : (2:ℕ)^(t+1)/2 = 2^t := pow_succ_div_two t
    have hb1 : 2^(t+1)*nb < num := by
      have := hbb nb (by omega)
      have h2t : (0:ℕ) < 2^t := Nat.pos_pow_of_pos t (by omega)
      omega
    have hb2 : 2^(t+1)*nb + 2^(t+1)/2 < num := by
      rw [hhalf]
      exact hbb nb (by omega)
    show colBracket mt k num (2^(t+1)) nb _ (cellOf k num m j) = _
    unfold colBracket
    rw [bfold_mem k num (2^(t+1)*nb) (2^(t+1)*nb + 2^(t+1)/2) _ m j hb1 hb2 hj
      (mt-(k+1)) (k+1) _ (by omega) hm1 (by omega)]
    have hprev := ih (colRound mt k num (2^(t+1)) w nb) (doRound (2^(t+1)) s nb)
      (fun b hb => hbb b (by omega)) ?_
    · show (if j = 2^(t+1)*nb then _ else _) = doBracket (2^(t+1)) nb (doRound (2^(t+1)) s nb) j
      unfold doBracket
      by_cases hjb : j = 2^(t+1)*nb
      · rw [if_pos hjb, if_pos hjb]
        rw [ih w s (fun b hb => hbb b (by omega)) hws (2^(t+1)*nb) hb1]
        rw [ih w s (fun b hb => hbb b (by omega)) hws (2^(t+1)*nb + 2^(t+1)/2) hb2]
      · rw [if_neg hjb, if_neg hjb]
        exact ih w s (fun b hb => hbb b (by omega)) hws j hj
    · intro j2 hj2
      exact ih w s (fun b hb => hbb b (by omega)) hws j2 hj2

/-- Restricted to the block of tile-row `m`, the interleaved tournament of
the column update agrees with the plain tournament. -/
lemma colTournAux_agree (mt k num m : ℕ) (hm1 : k+1 ≤ m) (hm2 : m < mt) :
    ∀ r t np (w s : ℕ → G),
      (np-1)*2^t < num → num ≤ np*2^t →
      (∀ j, j < num → w (cellOf k num m j) = s j) →
      ∀ j, j < num →
        colTournAux mt k num r (2^(t+1)) np w (cellOf k num m j)
          = tournamentAux r (2^(t+1)) np s j := by
  intro r
  induction r with
  | zero => intro t np w s _ _ hws j hj; exact hws j hj
  | succ r ih =>
    intro t np w s hlow hup hws j hj
    show colTournAux mt k num r (2*2^(t+1)) ((np+1)/2)
        (colRound mt k num (2^(t+1)) w (np/2)) (cellOf k num m j)
      = tournamentAux r (2*2^(t+1)) ((np+1)/2) (doRound (2^(t+1)) s (np/2)) j
    have hpow : 2*2^(t+1) = 2^(t+1+1) := by ring
    rw [hpow]
    apply ih (t+1) ((np+1)/2) _ _ (np_halve_lower hlow) (np_halve_upper hup) _ j hj
    intro j2 hj2
    exact colRound_agree mt k num m hm1 hm2 t (np/2) w s
      (fun b hb => bracket_bound hlow hb) hws j2 hj2

/-- C6 (counterexample to the claim as stated): at column `k = 0` the
workspace-parallel strategy computes `num = imin(0, tot/(mt-1)) = 0`, runs
no GEMM at all, and then still adds the stale initial contents of
workspace slot `W4(0)` into `L(m,1)` (pzhetrf_aa.c lines 297-305), while
the direct strategy leaves `L(m,1)` unchanged; with stale slot value 1 and
`L(1,1) = 0` the two strategies disagree. -/
theorem c6_counterexample :
    colUpdateWorkspace 2 0 5 (fun _ _ => (0:ℤ)) (fun _ => 0) (fun _ => 1) 1
      ≠ colUpdateDirect 2 0 (fun _ _ => (0:ℤ)) (fun _ => 0) 1 := by
  decide

/-- C6 (amended): for every column `k ≥ 1` with at least one reduction
slot per remaining tile-row (`imin(k, tot/(mt-k-1)) ≥ 1`), the
workspace-parallel strategy and the direct strategy compute, in exact
arithmetic, the same final value
`L(m,k+1) - Σ_{n=1}^{k} L(m,n)*H(n,k)` for every tile-row `m`,
independent of the stale initial workspace contents; at `k = 0` the
workspace path additionally adds the stale contents of slot `W4(0)`. -/
theorem c6_column_update_equivalence (mt k tot : ℕ) (c : ℕ → ℕ → G)
    (lcol w : ℕ → G) (hnum : 1 ≤ min k (tot / (mt - (k+1)))) :
    ∀ m, colUpdateWorkspace mt k tot c lcol w m = colUpdateDirect mt k c lcol m := by
  intro m
  have hk : 1 ≤ k := le_trans hnum (min_le_left _ _)
  have hnk : min k (tot/(mt-(k+1))) ≤ k := min_le_left _ _
  set num := min k (tot / (mt-(k+1))) with hnumdef
  have h0 : 1 ≤ num := hnum
  simp only [colUpdateWorkspace, colUpdateDirect]
  rw [colDirectLoop_eq]
  by_cases hin : k+1 ≤ m ∧ m < mt
  · rw [if_pos hin, if_pos hin]
    have hW : colTournAux mt k num (clog2 num) 2 num (colOuterLoop mt k num c w k)
        (cellOf k num m 0) = ∑ i in Finset.Ico 1 (k+1), -(c m i) := by
      have h2 : (2:ℕ) = 2^(0+1) := by norm_num
      rw [h2]
      rw [colTournAux_agree mt k num m hin.1 hin.2 (clog2 num) 0 num
        (colOuterLoop mt k num c w k)
        (fun j => colOuterLoop mt k num c w k (cellOf k num m j))
        (by simpa using Nat.sub_lt h0 one_pos) (by simp)
        (fun j hj => rfl) 0 h0]
      have hT : tournamentAux (clog2 num) (2^(0+1)) num
          (fun j => colOuterLoop mt k num c w k (cellOf k num m j)) 0
          = tournament num (fun j => colOuterLoop mt k num c w k (cellOf k num m j)) 0 := by
        rw [← h2]
        rfl
      rw [hT, tournament_sum num h0]
      have hs : ∀ j ∈ Finset.range num,
          colOuterLoop mt k num c w k (cellOf k num m j)
            = slotAccumAux num (fun i => -(c m i)) (fun j2 => w (cellOf k num m j2)) k j := by
        intro j hj
        rw [Finset.mem_range] at hj
        exact colOuterLoop_block mt k num h0 c w m hin.1 hin.2 k j hj
      rw [Finset.sum_congr rfl hs]
      exact slotAccum_range_sum num k h0 hnk (fun i => -(c m i)) _
    rw [hW]
  · rw [if_neg hin, if_neg hin]

/-- Witness for the amended C6 at `mt = 3`, `k = 1`, `tot = 5`. -/
theorem c6_column_update_equivalence_witness :
    colUpdateWorkspace 3 1 5 (fun m n => ((m+n:ℕ):ℤ)) (fun m => (m:ℤ)) (fun _ => 9) 2
      = colUpdateDirect 3 1 (fun m n => ((m+n:ℕ):ℤ)) (fun m => (m:ℤ)) 2 :=
  c6_column_update_equivalence 3 1 5 (fun m n => ((m+n:ℕ):ℤ)) (fun m => (m:ℤ))
    (fun _ => 9) (by decide) 2

variable {R : Type*} [Ring R] [StarRing R]

/-- The congruence-reduction stage for `T(k,k)` (pzhetrf_aa.c lines
175-198) at tile granularity, transcribed from the code: for `k > 0` the
Hermitian reduction kernel `zhegst` (abstracted as the parameter `hegst`)
is applied to `T(k,k)` under `L(k,k)`, but the preliminary 2-step chain
`W(0) = L(k,k)*T(k,k-1)`; `T(k,k) -= W(0)*L(k,k-1)ᴴ` is guarded by
`k > 1` (line 176). -/
def congruenceUpdate (hegst : R → R → R) (k : ℕ) (tkk tkm1 lkk lkm1 : R) : R :=
  if 0 < k then
    hegst (if 1 < k then tkk - lkk * tkm1 * star lkm1 else tkk) lkk
  else tkk

/-- Spec-side variant of the congruence stage, following the spec words
"When k>0, first update T(k,k) by subtracting W(0)·L(k,k-1)ᴴ where
W(0) = L(k,k)·T(k,k−1)": the 2-step chain is applied for every `k > 0`. -/
def congruenceUpdateSpec (hegst : R → R → R) (k : ℕ) (tkk tkm1 lkk lkm1 : R) : R :=
  if 0 < k then hegst (tkk - lkk * tkm1 * star lkm1) lkk else tkk

/-- C3 (counterexample to the claim as stated): at `k = 1` the code skips
the 2-step multiply chain (its guard at pzhetrf_aa.c line 176 is `k > 1`,
not `k > 0`), so the computed diagonal block differs from the
chain-always-when-`k>0` reading of the claim. -/
theorem c3_counterexample :
    congruenceUpdate (fun t _ => t) 1 (0:ℤ) 1 1 1
      ≠ congruenceUpdateSpec (fun t _ => t) 1 (0:ℤ) 1 1 1 := by
  decide

/-- C3 (amended): the two-step multiply chain is performed exactly when
`k > 1`; for every `k ≠ 1` the code's stage agrees with the spec's
"chain whenever k > 0" description (they differ only at `k = 1`, where
`L(k,k-1)` would be the nonexistent tile column `A(·,-1)`). -/
theorem c3_congruence_chain (hegst : R → R → R) (k : ℕ)
    (tkk tkm1 lkk lkm1 : R) (hk : k ≠ 1) :
    congruenceUpdate hegst k tkk tkm1 lkk lkm1
      = congruenceUpdateSpec hegst k tkk tkm1 lkk lkm1 := by
  unfold congruenceUpdate congruenceUpdateSpec
  rcases Nat.lt_or_ge k 1 with h | h
  · rw [if_neg (by omega), if_neg (by omega)]
  · have h0 : 0 < k := by omega
    have h2 : 1 < k := by omega
    simp only [if_pos h0, if_pos h2]

/-- Witness for the amended C3 at `k = 2`. -/
theorem c3_congruence_chain_witness :
    congruenceUpdate (fun t l => t + l) 2 (3:ℤ) 5 7 2
      = congruenceUpdateSpec (fun t l => t + l) 2 (3:ℤ) 5 7 2 :=
  c3_congruence_chain (fun t l => t + l) 2 3 5 7 2 (by decide)

/-- Status of the shared sequence object (plasma_sequence_t). -/
inductive SeqStatus where
  | success : SeqStatus
  | failed : ℕ → SeqStatus
deriving DecidableEq

/-- Model of `plasma_request_fail(sequence, request, code)`: records the
error code on the shared sequence. -/
def requestFail (code : ℕ) : SeqStatus := SeqStatus.failed code

/-- The panel-factorization failure path (pzhetrf_aa.c lines 344-358): if
the sequence is still successful and `core_zgetrf` returns `info ≠ 0`,
the shared status is set to `k*A.mb + info`; otherwise it is unchanged. -/
def panelStep (st : SeqStatus) (k mb info : ℕ) : SeqStatus :=
  match st with
  | SeqStatus.success => if info ≠ 0 then requestFail (k*mb + info) else SeqStatus.success
  | s => s

/-- C4 (counterexample to the claim as stated): with `k = 0`, `mb = 2` and
failing pivot `info = 1`, the recorded code is `k*mb + info = 1`, which
does not lie in the panel's global row range starting at
`(k+1)*mb = 2`. -/
theorem c4_counterexample :
    panelStep SeqStatus.success 0 2 1 = SeqStatus.failed 1 ∧ ¬ ((0+1)*2 ≤ 1) := by
  constructor
  · decide
  · decide

/-- C4 (amended): on `info ≠ 0` the shared sequence status becomes the
FactorizationError value `k*mb + info`, which is the 1-based global
diagonal position of the failing pivot; it lies in tile-column `k`'s
global COLUMN range `(k*mb, (k+1)*mb]`, not in the panel's row range
(which starts at global row `(k+1)*mb`). -/
theorem c4_failure_code (k mb info : ℕ) (h1 : 1 ≤ info) (h2 : info ≤ mb) :
    panelStep SeqStatus.success k mb info = SeqStatus.failed (k*mb + info)
      ∧ k*mb + 1 ≤ k*mb + info ∧ k*mb + info ≤ (k+1)*mb := by
  have hmul : (k+1)*mb = k*mb + mb := by ring
  refine ⟨?_, by omega, by omega⟩
  unfold panelStep requestFail
  rw [if_pos (by omega)]

/-- Witness for the amended C4 at `k = 1`, `mb = 2`, `info = 2`. -/
theorem c4_failure_code_witness :
    panelStep SeqStatus.success 1 2 2 = SeqStatus.failed (1*2 + 2)
      ∧ 1*2 + 1 ≤ 1*2 + 2 ∧ 1*2 + 2 ≤ (1+1)*2 :=
  c4_failure_code 1 2 2 (by decide) (by decide)

/-- Model of the tile kernel `core_zgemm`: `alpha*op(A)*op(B) + beta*C`. -/
def zgemmVal (alpha a b beta cc : R) : R := alpha * (a * b) + beta * cc

/-- The off-diagonal auxiliary block computation `H(m,k)` (pzhetrf_aa.c
lines 78-106), transcribed GEMM by GEMM: `H = T(m,m)*L(k,m)ᴴ` with
`beta = 0` over the stale workspace `h0`, then (if `m > 1`)
`H += T(m,m-1)*L(k,m-1)ᴴ`, then `H += T(m+1,m)ᴴ*L(k,m+1)ᴴ`.
`T i j` and `L i j` are the tile values of the band factor and of the
factor columns. -/
def computeHOff (k m : ℕ) (T L : ℕ → ℕ → R) (h0 : R) : R :=
  let h1 := zgemmVal 1 (T m m) (star (L k m)) 0 h0
  let h2 := if 1 < m then zgemmVal 1 (T m (m-1)) (star (L k (m-1))) 1 h1 else h1
  zgemmVal 1 (star (T (m+1) m)) (star (L k (m+1))) 1 h2

/-- C8: the auxiliary block `H(m,k)` equals the 3-term accumulation
`T(m,m)*L(k,m)ᴴ + (if m > 1) T(m,m-1)*L(k,m-1)ᴴ + T(m+1,m)ᴴ*L(k,m+1)ᴴ`;
only the diagonal tile of `T` and its two adjacent band tiles contribute,
and the stale workspace value `h0` does not. -/
theorem c8_offdiagonal_h (k m : ℕ) (T L : ℕ → ℕ → R) (h0 : R) :
    computeHOff k m T L h0 =
      T m m * star (L k m)
      + (if 1 < m then T m (m-1) * star (L k (m-1)) else 0)
      + star (T (m+1) m) * star (L k (m+1)) := by
  simp only [computeHOff, zgemmVal]
  split_ifs with hm
  · simp only [one_mul, zero_mul, add_zero]
    abel
  · simp only [one_mul, zero_mul, add_zero]
    abel

/-- C10: in the round-robin reduction-slot loops (diagonal assembly,
slot `(m-1) % num`, and the per-row column update, slot
`(n-1) % num` within the row's block), `beta = 0` exactly when the
contributor index is `≤ num`, and this is exactly the first write to the
slot in loop order; consequently the contents of every written slot are
independent of the stale initial workspace, so no stale data enters the
accumulated sums. -/
theorem c10_beta_first_write (num : ℕ) (hnum : 1 ≤ num) :
    (∀ m : ℕ, 1 ≤ m →
      ((m < num + 1) ↔ ∀ mp, 1 ≤ mp → mp < m → (mp-1) % num ≠ (m-1) % num))
    ∧ ∀ (d : ℕ → M) (w wp : ℕ → M) (j i : ℕ), i < j → i < num →
        slotAccumAux num d w j i = slotAccumAux num d wp j i := by
  constructor
  · intro m hm
    constructor
    · intro hlt mp h1 h2 heq
      have e1 : (mp-1) % num = mp-1 := Nat.mod_eq_of_lt (by omega)
      have e2 : (m-1) % num = m-1 := Nat.mod_eq_of_lt (by omega)
      rw [e1, e2] at heq
      omega
    · intro hall
      by_contra hge
      have h1 : 1 ≤ m - num := by omega
      have h2 : m - num < m := by omega
      apply hall (m - num) h1 h2
      have e3 : m - num - 1 = (m-1) - num := by omega
      rw [e3]
      exact (Nat.mod_eq_sub_mod (by omega : num ≤ m-1)).symm
  · intro d w wp j i hij hi
    rw [slotAccum_eq num hnum d w j i, slotAccum_eq num hnum d wp j i,
      if_pos (by omega), if_pos (by omega)]

/-- Witness for C10 at `num = 2`, three contributors, two distinct stale
workspace states. -/
theorem c10_beta_first_write_witness :
    slotAccumAux 2 (fun m => (m:ℤ)) (fun _ => 5) 3 0
      = slotAccumAux 2 (fun m => (m:ℤ)) (fun _ => 9) 3 0 :=
  (c10_beta_first_write 2 (by decide)).2 (fun m => (m:ℤ)) (fun _ => 5) (fun _ => 9)
    3 0 (by decide) (by decide)

/-- Tile coordinates of the references to the band factor `T` made by the
`H(1:k-1,k)` loop of iteration `k` (pzhetrf_aa.c lines 78-106): for
`m = 1 … j`, the three GEMMs read `T(m,m)`, (if `m > 1`) `T(m,m-1)`,
and `T(m+1,m)`. -/
def tRefsHAux : ℕ → List (ℕ × ℕ)
  | 0 => []
  | j+1 => tRefsHAux j ++
      ([(j+1, j+1)] ++ (if 1 < j+1 then [(j+1, j)] else []) ++ [(j+2, j+1)])

/-- Tile coordinates of every read or write of the band factor `T` during
iteration `k` of the PlasmaLower loop, in program order, transcribed
guard-by-guard from pzhetrf_aa.c:
the `H(1:k-1,k)` loop (lines 78-106); the diagonal assembly writes
(`zlacpy` then `zgeadd`, lines 149-159, or `zlacpy` then mirror,
lines 161-172 — both touch `T(k,k)` twice); for `k > 0` the chain GEMMs
(lines 177-190, reading `T(k,k-1)` and updating `T(k,k)`, guarded by
`k > 1`), the `zhegst` and the mirror (lines 194-205); the `H(k,k)` GEMM
reading `T(k,k-1)` (line 214, guarded by `k > 1`); and for `k+1 < nt` the
`H(k,k)` GEMM reading `T(k,k)` (line 226, `k > 0`), the band
finalization writes to `T(k+1,k)` (lines 437-442), the `ztrsm`
(lines 456-464, `k > 0`), and the mirror writing `T(k,k+1)` from
`T(k+1,k)` (lines 466-470). -/
def tRefsIter (nt k : ℕ) : List (ℕ × ℕ) :=
  tRefsHAux (k-1)
  ++ [(k,k), (k,k)]
  ++ (if 0 < k then
        (if 1 < k then [(k, k-1), (k,k)] else []) ++ [(k,k), (k,k)]
      else [])
  ++ (if 1 < k then [(k, k-1)] else [])
  ++ (if k+1 < nt then
        (if 0 < k then [(k,k)] else []) ++ [(k+1, k)]
        ++ (if 0 < k then [(k+1, k)] else []) ++ [(k, k+1), (k+1, k)]
      else [])

/-- Band-containment of a list of tile references. -/
def bandOK (l : List (ℕ × ℕ)) : Prop :=
  ∀ p ∈ l, p.1 ≤ p.2 + 1 ∧ p.2 ≤ p.1 + 1

lemma bandOK_nil : bandOK [] := by
  intro p hp
  simp at hp

lemma bandOK_cons {a b : ℕ} {l : List (ℕ × ℕ)} (h1 : a ≤ b+1) (h2 : b ≤ a+1)
    (hl : bandOK l) : bandOK ((a,b) :: l) := by
  intro p hp
  rcases List.mem_cons.mp hp with h | h
  · subst h
    exact ⟨h1, h2⟩
  · exact hl p h

lemma bandOK_append {l1 l2 : List (ℕ × ℕ)} (h1 : bandOK l1) (h2 : bandOK l2) :
    bandOK (l1 ++ l2) := by
  intro p hp
  rcases List.mem_append.mp hp with h | h
  · exact h1 p h
  · exact h2 p h

lemma bandOK_ite {c : Prop} [Decidable c] {l1 l2 : List (ℕ × ℕ)}
    (h1 : c → bandOK l1) (h2 : bandOK l2) : bandOK (if c then l1 else l2) := by
  by_cases hc : c
  · rw [if_pos hc]
    exact h1 hc
  · rw [if_neg hc]
    exact h2

lemma tRefsHAux_band (j : ℕ) : bandOK (tRefsHAux j) := by
  induction j with
  | zero => exact bandOK_nil
  | succ j ih =>
    apply bandOK_append ih
    apply bandOK_append
    apply bandOK_append
    · exact bandOK_cons (by omega) (by omega) bandOK_nil
    · exact bandOK_ite (fun _ => bandOK_cons (by omega) (by omega) bandOK_nil) bandOK_nil
    · exact bandOK_cons (by omega) (by omega) bandOK_nil

/-- C9: every read or write of the band factor `T` performed by any
iteration `k` of the PlasmaLower loop addresses a tile `(i,j)` with
`|i - j| ≤ 1`: `T` is only ever referenced inside its band (diagonal plus
the immediately adjacent sub/super-diagonal tile positions `T(k,k)`,
`T(k,k-1)`, `T(k+1,k)`, `T(k,k+1)` for the current and earlier columns),
for all matrix sizes and all `k`. -/
theorem c9_band_references (nt k : ℕ) :
    ∀ p : ℕ × ℕ, p ∈ tRefsIter nt k → p.1 ≤ p.2 + 1 ∧ p.2 ≤ p.1 + 1 := by
  have hband : bandOK (tRefsIter nt k) := by
    unfold tRefsIter
    apply bandOK_append
    apply bandOK_append
    apply bandOK_append
    apply bandOK_append
    · exact tRefsHAux_band (k-1)
    · exact bandOK_cons (by omega) (by omega)
        (bandOK_cons (by omega) (by omega) bandOK_nil)
    · apply bandOK_ite _ bandOK_nil
      intro h0
      apply bandOK_append
      · exact bandOK_ite (fun h1 => bandOK_cons (by omega) (by omega)
          (bandOK_cons (by omega) (by omega) bandOK_nil)) bandOK_nil
      · exact bandOK_cons (by omega) (by omega)
          (bandOK_cons (by omega) (by omega) bandOK_nil)
    · exact bandOK_ite (fun h1 => bandOK_cons (by omega) (by omega) bandOK_nil)
        bandOK_nil
    · apply bandOK_ite _ bandOK_nil
      intro hnt
      apply bandOK_append
      apply bandOK_append
      apply bandOK_append
      · exact bandOK_ite (fun h0 => bandOK_cons (by omega) (by omega) bandOK_nil)
          bandOK_nil
      · exact bandOK_cons (by omega) (by omega) bandOK_nil
      · exact bandOK_ite (fun h0 => bandOK_cons (by omega) (by omega) bandOK_nil)
          bandOK_nil
      · exact bandOK_cons (by omega) (by omega)
          (bandOK_cons (by omega) (by omega) bandOK_nil)
  exact hband

/-- Witness for C9 at `nt = 3`, `k = 2` and the chain read `T(2,1)`. -/
theorem c9_band_references_witness :
    (2,1).1 ≤ (2,1).2 + 1 ∧ (2,1).2 ≤ (2,1).1 + 1 :=
  c9_band_references 3 2 (2,1) (by decide)

variable {nb : ℕ} {K : Type*} [Ring K] [StarRing K]

/-- A square tile of block size `nb` over the scalar type `K`. -/
abbrev Tile (nb : ℕ) (K : Type*) := Matrix (Fin nb) (Fin nb) K

/-- `core_zlacpy(PlasmaUpper, …, src, dst)`: copy the upper triangle
(including the diagonal) of `src` over `dst`, leaving the rest of `dst`. -/
def zlacpyUpper (src dst : Tile nb K) : Tile nb K :=
  Matrix.of fun i j => if (i:ℕ) ≤ (j:ℕ) then src i j else dst i j

/-- `core_zlaset(PlasmaUpper, …, 0, 1, a)` (pzhetrf_aa.c lines 450-455):
set the strict upper triangle of `a` to 0 and the diagonal to 1. -/
def zlasetUpperUnit (a : Tile nb K) : Tile nb K :=
  Matrix.of fun i j => if (i:ℕ) < (j:ℕ) then 0 else if i = j then 1 else a i j

/-- The unit upper-triangular matrix `op(A) = Aᴴ` that
`core_ztrsm(Right, Lower, ConjTrans, Unit, …, a, b)` solves against: only
the strictly lower part of `a` is read, the diagonal is taken to be 1. -/
def unitUpperCT (a : Tile nb K) : Tile nb K :=
  Matrix.of fun i j =>
    if (i:ℕ) < (j:ℕ) then star (a j i) else if i = j then 1 else 0

/-- Entry `(i,j)` of the solution `X` of `X * unitUpperCT a = b`, by
forward substitution on columns (the triangular-solve kernel). -/
def trsmCol (a b : Tile nb K) (i j : Fin nb) : K :=
  b i j - ∑ m in (Finset.univ.filter (fun m : Fin nb => (m:ℕ) < (j:ℕ))).attach,
    trsmCol a b i m.1 * unitUpperCT a m.1 j
termination_by (j:ℕ)
decreasing_by exact (Finset.mem_filter.mp m.2).2

/-- `core_ztrsm(PlasmaRight, PlasmaLower, PlasmaConjTrans, PlasmaUnit,
…, 1, a, b)`: overwrite `b` with the solution `X` of
`X * aᴴ = b` where `a` is taken unit lower triangular. -/
def trsmRightLowerCTUnit (a b : Tile nb K) : Tile nb K :=
  Matrix.of fun i j => trsmCol a b i j

lemma trsmCol_eq (a b : Tile nb K) (i j : Fin nb) :
    trsmCol a b i j = b i j -
      ∑ m in Finset.univ.filter (fun m : Fin nb => (m:ℕ) < (j:ℕ)),
        trsmCol a b i m * unitUpperCT a m j := by
  rw [trsmCol]
  congr 1
  exact Finset.sum_attach _ (fun m => trsmCol a b i m * unitUpperCT a m j)

/-- The triangular solve is correct: the result right-multiplied by the
unit upper-triangular conjugate transpose gives back `b`. -/
lemma trsm_solves (a b : Tile nb K) :
    trsmRightLowerCTUnit a b * unitUpperCT a = b := by
  ext i j
  rw [Matrix.mul_apply]
  have hsplit := Finset.sum_filter_add_sum_filter_not Finset.univ
    (fun m : Fin nb => (m:ℕ) < (j:ℕ))
    (fun m => trsmRightLowerCTUnit a b i m * unitUpperCT a m j)
  rw [← hsplit]
  have hx : ∀ m : Fin nb, trsmRightLowerCTUnit a b i m = trsmCol a b i m := fun m => rfl
  have hnot : ∑ m in Finset.univ.filter (fun m : Fin nb => ¬ (m:ℕ) < (j:ℕ)),
      trsmRightLowerCTUnit a b i m * unitUpperCT a m j = trsmCol a b i j := by
    have hcong : ∀ m ∈ Finset.univ.filter (fun m : Fin nb => ¬ (m:ℕ) < (j:ℕ)),
        trsmRightLowerCTUnit a b i m * unitUpperCT a m j
          = if m = j then trsmCol a b i j else 0 := by
      intro m hm
      rw [Finset.mem_filter] at hm
      have hU : unitUpperCT a m j = if m = j then 1 else 0 := by
        show (if (m:ℕ) < (j:ℕ) then star (a j m) else if m = j then 1 else 0) = _
        rw [if_neg hm.2]
      rw [hU, hx m]
      by_cases hmj : m = j
      · rw [if_pos hmj, if_pos hmj, mul_one, hmj]
      · rw [if_neg hmj, if_neg hmj, mul_zero]
    rw [Finset.sum_congr rfl hcong]
    rw [Finset.sum_ite_eq' _ j (fun _ => trsmCol a b i j)]
    rw [if_pos (by
      rw [Finset.mem_filter]
      exact ⟨Finset.mem_univ j, by omega⟩)]
  have hlt : ∑ m in Finset.univ.filter (fun m : Fin nb => (m:ℕ) < (j:ℕ)),
      trsmRightLowerCTUnit a b i m * unitUpperCT a m j
      = ∑ m in Finset.univ.filter (fun m : Fin nb => (m:ℕ) < (j:ℕ)),
        trsmCol a b i m * unitUpperCT a m j := by
    apply Finset.sum_congr rfl
    intro m _
    rw [hx m]
  rw [hnot, hlt, trsmCol_eq a b i j]
  abel

/-- The conjugate-transpose mirror `T(k,k+1)[i,j] = conj(T(k+1,k)[j,i])`
(pzhetrf_aa.c lines 466-470). -/
def mirrorCT (t : Tile nb K) : Tile nb K :=
  Matrix.of fun i j => star (t j i)

/-- The band-finalization stage of iteration `k` (pzhetrf_aa.c lines
431-470), transcribed step by step: (i) `zlacpy(Upper)` of the freshly
factored diagonal tile `L(k+1,k+1)` over the old contents of `T(k+1,k)`;
(ii) `zlaset(Upper, 0, 1)` making `L(k+1,k+1)` unit triangular;
(iii) if `k > 0`, `ztrsm(Right, Lower, ConjTrans, Unit)` with `L(k,k)`
applied to `T(k+1,k)`; (iv) the conjugate-transpose mirror into
`T(k,k+1)`.  Returns `(T(k+1,k), new L(k+1,k+1), T(k,k+1))`. -/
def bandFinalize (k : ℕ) (lkp1 lkk told : Tile nb K) :
    Tile nb K × Tile nb K × Tile nb K :=
  let t1 := zlacpyUpper lkp1 told
  let l2 := zlasetUpperUnit lkp1
  let t3 := if 0 < k then trsmRightLowerCTUnit lkk t1 else t1
  (t3, l2, mirrorCT t3)

/-- C7: band finalization performs, in order: (i) the upper triangle of
`L(k+1,k+1)` is copied into `T(k+1,k)`; (ii) `L(k+1,k+1)`'s upper
triangle becomes the identity (unit diagonal, zero strictly-upper, lower
part untouched); (iii) for `k > 0` the copied block is right-multiplied
by the inverse of the unit-lower conjugate transpose of `L(k,k)` — i.e.
the stored `T(k+1,k)` satisfies `T(k+1,k) * L(k,k)ᴴ = ` the copied upper
triangle; (iv) `T(k,k+1)` is the conjugate transpose of `T(k+1,k)`. -/
theorem c7_band_finalization (k : ℕ) (lkp1 lkk told : Tile nb K) :
    (0 < k → (bandFinalize k lkp1 lkk told).1 * unitUpperCT lkk
        = zlacpyUpper lkp1 told)
    ∧ (k = 0 → (bandFinalize k lkp1 lkk told).1 = zlacpyUpper lkp1 told)
    ∧ (∀ i j : Fin nb,
        ((i:ℕ) < (j:ℕ) → (bandFinalize k lkp1 lkk told).2.1 i j = 0)
        ∧ (i = j → (bandFinalize k lkp1 lkk told).2.1 i j = 1)
        ∧ ((j:ℕ) < (i:ℕ) → (bandFinalize k lkp1 lkk told).2.1 i j = lkp1 i j))
    ∧ (bandFinalize k lkp1 lkk told).2.2
        = Matrix.conjTranspose (bandFinalize k lkp1 lkk told).1 := by
  refine ⟨?_, ?_, ?_, ?_⟩
  · intro hk
    show (if 0 < k then trsmRightLowerCTUnit lkk (zlacpyUpper lkp1 told)
        else zlacpyUpper lkp1 told) * unitUpperCT lkk = _
    rw [if_pos hk]
    exact trsm_solves lkk (zlacpyUpper lkp1 told)
  · intro hk
    show (if 0 < k then trsmRightLowerCTUnit lkk (zlacpyUpper lkp1 told)
        else zlacpyUpper lkp1 told) = _
    rw [if_neg (by omega)]
  · intro i j
    refine ⟨?_, ?_, ?_⟩
    · intro hij
      show (if (i:ℕ) < (j:ℕ) then 0 else if i = j then 1 else lkp1 i j) = 0
      rw [if_pos hij]
    · intro hij
      show (if (i:ℕ) < (j:ℕ) then 0 else if i = j then 1 else lkp1 i j) = 1
      rw [if_neg (by omega), if_pos hij]
    · intro hij
      show (if (i:ℕ) < (j:ℕ) then 0 else if i = j then 1 else lkp1 i j) = lkp1 i j
      rw [if_neg (by omega), if_neg (by
        intro h
        rw [h] at hij
        omega)]
  · ext i j
    show star ((bandFinalize k lkp1 lkk told).1 j i) = _
    rw [Matrix.conjTranspose_apply]

/-- Witness for C7 at `k = 1` with concrete 2×2 integer tiles. -/
theorem c7_band_finalization_witness :
    (bandFinalize 1 (!![(1:ℤ),2;3,4]) (!![1,0;5,1]) (!![9,8;7,6])).1
        * unitUpperCT (!![1,0;5,1])
      = zlacpyUpper (!![(1:ℤ),2;3,4]) (!![9,8;7,6]) :=
  (c7_band_finalization 1 (!![(1:ℤ),2;3,4]) (!![1,0;5,1]) (!![9,8;7,6])).1
    (by decide)

end Pzhetrf
